import Mathlib

/-!
Shallow embedding of the model-selection and recognition layer of the
`hidden_markov_models` repository (`my_model_selectors.py`, `my_recognizer.py`).

Python float values are represented by `ℚ`.  An operation of the external
fitting/scoring library that can raise an exception is represented by an
`Option`-valued function (`none` models the raised exception); `try/except:
pass` blocks in the source become `match ... with | none => skip` branches.
Statements that can raise outside of any `try` block are embedded in
`Except`, so that an uncaught failure is observable as `.error`.
-/

namespace HMM

/-- One observation sequence: a list of frames, each a feature vector. -/
abbrev Obs := List (List ℚ)

/-- Flattened data of a word: concatenated feature matrix and per-sequence lengths. -/
abbrev FlatData := List (List ℚ) × List ℕ

/-- A fitted Gaussian HMM as the selection layer sees it (external `GaussianHMM`):
readable attributes `n_components` and `n_features`, and a `score` method that
may raise (modelled by `none`). -/
structure HMMModel where
  n_components : ℕ
  n_features : ℕ
  score : List (List ℚ) → List ℕ → Option ℚ

/-- External environment of the selectors: the HMM fitting routine
(`GaussianHMM(n_components=k, ...).fit(X, lengths)`, `none` models a raised
fitting failure) and the float logarithm `math.log` on natural numbers
(`none` models the `ValueError` raised at 0). -/
structure FitEnv where
  fit : ℕ → List (List ℚ) → List ℕ → Option HMMModel
  log : ℕ → Option ℚ

/-- Immutable per-selector attributes set in `ModelSelector.__init__` and never
reassigned: the target word, its training sequences, and the search configuration. -/
structure SelCfg where
  this_word : String
  sequences : List Obs
  n_constant : ℕ
  min_n_components : ℕ
  max_n_components : ℕ

/-- Mutable attribute state of a selector instance: the two shared mappings
(`self.words = all_word_sequences`, `self.hwords = all_word_Xlengths`, as
insertion-ordered association lists) and the instance's own flattened data
(`self.X`, `self.lengths`), the only attributes the source ever reassigns. -/
structure SelState where
  words : List (String × List Obs)
  hwords : List (String × FlatData)
  X : List (List ℚ)
  lengths : List ℕ

/-- Modelled from the spec: `combine_sequences` of `asl_utils` (the repository
module is not under `src/`); per the FoldSplitter contract it concatenates the
sequences selected by an index list into a single (features, lengths) pair. -/
def combine_sequences (idx : List ℕ) (seqs : List Obs) : FlatData :=
  ((idx.map (fun i => seqs.getD i [])).flatten,
   idx.map (fun i => (seqs.getD i []).length))

/-- `ModelSelector.base_model`: attempt the external fit; any fitting failure
is caught and the explicit failure value `None` is returned (never raises). -/
def base_model (env : FitEnv) (st : SelState) (num_states : ℕ) : Option HMMModel :=
  env.fit num_states st.X st.lengths

/-- The candidate range `range(self.min_n_components, self.max_n_components + 1)`. -/
def searchRange (cfg : SelCfg) : List ℕ :=
  List.range' cfg.min_n_components (cfg.max_n_components + 1 - cfg.min_n_components)

/-- `np.mean` of a list of floats (meaningful on nonempty lists). -/
def listMean (l : List ℚ) : ℚ := l.sum / (l.length : ℚ)

/-! ## Candidate loops shared by `SelectorBIC.select` and `SelectorDIC.select`

Both selectors run
`for num in range(min, max+1): try: score = ...; if better(score, best): update
except: pass`.  `f k = none` models the body raising (candidate skipped); the
accumulator is the running best score (`none` is the initial infinity) and the
running `best_num_components`. -/

def candLoop (f : ℕ → Option ℚ) (better : ℚ → ℚ → Bool) :
    List ℕ → Option ℚ × ℕ → Option ℚ × ℕ
  | [], acc => acc
  | k :: rest, acc =>
    match f k with
    | none => candLoop f better rest acc
    | some s =>
      match acc.1 with
      | none => candLoop f better rest (some s, k)
      | some m =>
        if better s m then candLoop f better rest (some s, k)
        else candLoop f better rest acc

/-! ## SelectorConstant -/

/-- `SelectorConstant.select`: fit and return `base_model(self.n_constant)`.
The attribute state is returned unchanged (the body contains no assignment). -/
def selectConstant (env : FitEnv) (cfg : SelCfg) (st : SelState) :
    Option HMMModel × SelState :=
  (base_model env st cfg.n_constant, st)

/-! ## SelectorBIC -/

/-- `SelectorBIC.select.score_BIC`: fit, score on the word's own flattened
data, and combine as `-2*logL + p*log(N)` with
`p = n_components^2 + 2*n_components*n_features` and `N = len(self.sequences)`.
`none` models any exception in the body (`None.score`, score failure,
`math.log` failure), which the caller's `except: pass` absorbs. -/
def score_BIC (env : FitEnv) (cfg : SelCfg) (st : SelState) (num_states : ℕ) :
    Option ℚ :=
  match base_model env st num_states with
  | none => none
  | some model =>
    match model.score st.X st.lengths with
    | none => none
    | some logL =>
      let p : ℕ := model.n_components ^ 2 + 2 * model.n_components * model.n_features
      match env.log cfg.sequences.length with
      | none => none
      | some logN => some (-2 * logL + (p : ℚ) * logN)

/-- The comparison `score < min_score` of `SelectorBIC.select`. -/
def bicBetter (s m : ℚ) : Bool := decide (s < m)

/-- The comparison `score > max_score` of `SelectorDIC.select`. -/
def dicBetter (s m : ℚ) : Bool := decide (m < s)

/-- The `best_num_components` computed by `SelectorBIC.select`: minimum BIC,
starting from `min_score = inf`, `best = self.n_constant`. -/
def bestBIC (env : FitEnv) (cfg : SelCfg) (st : SelState) : ℕ :=
  (candLoop (score_BIC env cfg st) bicBetter
    (searchRange cfg) (none, cfg.n_constant)).2

/-- `SelectorBIC.select`: returns `base_model(best_num_components)`;
state unchanged (no assignment in the body). -/
def selectBIC (env : FitEnv) (cfg : SelCfg) (st : SelState) :
    Option HMMModel × SelState :=
  (base_model env st (bestBIC env cfg st), st)

/-! ## SelectorDIC -/

/-- The `other_words` list built by `SelectorDIC.select`:
`for word in self.words: if word != self.this_word:
other_words.append(self.hwords[word])`.  A missing key raises `KeyError`
outside any `try` block, modelled as `.error`. -/
def buildOtherWords (hwords : List (String × FlatData)) (this_word : String) :
    List (String × List Obs) → Except Unit (List FlatData)
  | [] => .ok []
  | p :: rest =>
    if p.1 = this_word then buildOtherWords hwords this_word rest
    else
      match hwords.lookup p.1 with
      | none => .error ()
      | some d => do
        let r ← buildOtherWords hwords this_word rest
        .ok (d :: r)

/-- The list comprehension `[model.score(word[0], word[1]) for word in
other_words]`: it raises (producing `none`) as soon as ANY single element's
scoring raises. -/
def scoreAll (model : HMMModel) : List FlatData → Option (List ℚ)
  | [] => some []
  | w :: rest =>
    match model.score w.1 w.2 with
    | none => none
    | some s =>
      match scoreAll model rest with
      | none => none
      | some l => some (s :: l)

/-- `SelectorDIC.select.score_DIC`: fit, score the SAME model against every
other word's flattened data, score the own data, and subtract the mean.
Note `np.mean([])` is NaN and a NaN score never wins the `>` comparison, so an
empty `other_words` list is modelled as a skipped candidate. -/
def score_DIC (env : FitEnv) (st : SelState) (other_words : List FlatData)
    (num_states : ℕ) : Option ℚ :=
  match base_model env st num_states with
  | none => none
  | some model =>
    match scoreAll model other_words with
    | none => none
    | some anti_log_likelihoods =>
      match model.score st.X st.lengths with
      | none => none
      | some own =>
        if anti_log_likelihoods.isEmpty then none
        else some (own - listMean anti_log_likelihoods)

/-- The `best_num_components` computed by `SelectorDIC.select`: maximum DIC,
starting from `max_score = -inf`, `best = self.n_constant`. -/
def bestDIC (env : FitEnv) (cfg : SelCfg) (st : SelState)
    (other_words : List FlatData) : ℕ :=
  (candLoop (score_DIC env st other_words) dicBetter
    (searchRange cfg) (none, cfg.n_constant)).2

/-- `SelectorDIC.select`: build `other_words` (may raise `KeyError`), run the
candidate loop, return `base_model(best_num_components)`; state unchanged. -/
def selectDIC (env : FitEnv) (cfg : SelCfg) (st : SelState) :
    Except Unit (Option HMMModel × SelState) :=
  match buildOtherWords st.hwords cfg.this_word st.words with
  | .error e => .error e
  | .ok other_words =>
    .ok (base_model env st (bestDIC env cfg st other_words), st)

/-! ## SelectorCV -/

/-- Modelled from the spec: the external FoldSplitter (`sklearn` `KFold()`,
fold count 3 per the spec defaults, no shuffling): the first `n % k` test
blocks have size `n / k + 1`, the rest `n / k`. -/
def foldSizes (k n : ℕ) : List ℕ :=
  (List.range k).map (fun i => n / k + if i < n % k then 1 else 0)

/-- Consecutive index blocks of the given sizes, starting at `start`. -/
def foldBlocks : List ℕ → ℕ → List (List ℕ)
  | [], _ => []
  | s :: rest, start =>
    ((List.range s).map (· + start)) :: foldBlocks rest (start + s)

/-- Modelled from the spec: `KFold.split` over `n` sequence indices with `k`
folds: each fold is a (train_index, test_index) pair, the test indices being a
consecutive block and the train indices its ordered complement. -/
def kfoldSplits (k n : ℕ) : List (List ℕ × List ℕ) :=
  (foldBlocks (foldSizes k n) 0).map
    (fun test => ((List.range n).filter (fun j => ¬ j ∈ test), test))

/-- The attribute state carried out of `cv_score`, whether it returned
normally (`.ok`) or raised (`.error`). -/
def stateOf : Except SelState (ℚ × SelState) → SelState
  | .error st => st
  | .ok p => p.2

/-- The state obtained by overwriting `self.X, self.lengths` with the
concatenated train-index sequences of a fold. -/
def trainState (cfg : SelCfg) (st : SelState) (fold : List ℕ × List ℕ) : SelState :=
  { words := st.words, hwords := st.hwords
    X := (combine_sequences fold.1 cfg.sequences).1
    lengths := (combine_sequences fold.1 cfg.sequences).2 }

/-- The per-fold loop inside `SelectorCV.select.cv_score`: each iteration
first overwrites `self.X, self.lengths` with the fold's concatenated
train-index sequences, fits, and scores against the concatenated test-index
sequences, overwriting the single variable `log_likelihood`.  An exception
(`None.score` after a failed fit, or a score failure) aborts the loop with the
already-mutated state (`.error`); an exhausted loop returns the LAST fold's
log-likelihood (`none` accumulator on an empty fold list models the unbound
`log_likelihood`, a `NameError`). -/
def runFolds (env : FitEnv) (cfg : SelCfg) (num_states : ℕ) :
    List (List ℕ × List ℕ) → SelState → Option ℚ →
    Except SelState (ℚ × SelState)
  | [], st, none => .error st
  | [], st, some ll => .ok (ll, st)
  | fold :: rest, st, _ =>
    let st' := trainState cfg st fold
    match base_model env st' num_states with
    | none => .error st'
    | some model =>
      let test := combine_sequences fold.2 cfg.sequences
      match model.score test.1 test.2 with
      | none => .error st'
      | some ll => runFolds env cfg num_states rest st' (some ll)

/-- `SelectorCV.select.cv_score`: with more than 2 sequences run the fold
loop over `kf.split(self.sequences)`; otherwise fit once on the stored data
and score it against itself.  `.error` carries the mutated state out of a
raised exception; `.ok` carries the returned log-likelihood and the state. -/
def cv_score (env : FitEnv) (cfg : SelCfg) (st : SelState) (num_states : ℕ) :
    Except SelState (ℚ × SelState) :=
  if 2 < cfg.sequences.length then
    runFolds env cfg num_states (kfoldSplits 3 cfg.sequences.length) st none
  else
    match base_model env st num_states with
    | none => .error st
    | some model =>
      match model.score st.X st.lengths with
      | none => .error st
      | some ll => .ok (ll, st)

/-- The candidate loop of `SelectorCV.select`: on success append the single
value returned by `cv_score` to the running `log_likelihoods` list (which
accumulates ACROSS candidates), compare the running mean against the best
mean; on an exception (`except: pass`) keep everything but the mutated state.
Returns (final state, best_num_components, final log_likelihoods). -/
def cvLoop (env : FitEnv) (cfg : SelCfg) :
    List ℕ → SelState → List ℚ → Option ℚ → ℕ → SelState × ℕ × List ℚ
  | [], st, log_likelihoods, _, best => (st, best, log_likelihoods)
  | k :: rest, st, log_likelihoods, max_avg, best =>
    match cv_score env cfg st k with
    | .error st' => cvLoop env cfg rest st' log_likelihoods max_avg best
    | .ok (ll, st') =>
      let lls' := log_likelihoods ++ [ll]
      let avg := listMean lls'
      match max_avg with
      | none => cvLoop env cfg rest st' lls' (some avg) k
      | some m =>
        if m < avg then cvLoop env cfg rest st' lls' (some avg) k
        else cvLoop env cfg rest st' lls' (some m) best

/-- The full run of `SelectorCV.select` up to the final fit: final mutated
state, chosen `best_num_components`, and the accumulated list. -/
def cvRun (env : FitEnv) (cfg : SelCfg) (st : SelState) : SelState × ℕ × List ℚ :=
  cvLoop env cfg (searchRange cfg) st [] none cfg.n_constant

/-- `SelectorCV.select`: run the candidate loop, then return
`base_model(best_num_components)` — fit on the CURRENT (possibly fold-mutated)
`self.X, self.lengths`. -/
def selectCVfull (env : FitEnv) (cfg : SelCfg) (st : SelState) :
    Option HMMModel × SelState :=
  let r := cvRun env cfg st
  (base_model env r.1 r.2.1, r.1)

/-! ## Uniform strategy dispatch -/

/-- The four concrete selection strategies. -/
inductive Strategy
  | constant
  | bic
  | dic
  | cv

/-- Uniform `select()` entry point over the four strategies, threading the
attribute state; only the DIC branch can raise. -/
def runSelect (env : FitEnv) (cfg : SelCfg) (strat : Strategy) (st : SelState) :
    Except Unit (Option HMMModel × SelState) :=
  match strat with
  | .constant => .ok (selectConstant env cfg st)
  | .bic => .ok (selectBIC env cfg st)
  | .dic => selectDIC env cfg st
  | .cv => .ok (selectCVfull env cfg st)

/-! ## Recognizer (`my_recognizer.py`) -/

/-- The per-item score table: score the item against every word's model,
omitting (via `try/except: pass`) the words whose model fails to score. -/
def scoreTable (models : List (String × HMMModel)) (X : List (List ℚ))
    (lengths : List ℕ) : List (String × ℚ) :=
  models.filterMap (fun p => (p.2.score X lengths).map (fun s => (p.1, s)))

/-- Python's `max(probs_dict, key=probs_dict.get)`: the first key attaining the
maximal value, in insertion order; `none` when the mapping is empty (in which
case the source raises `ValueError`). -/
def argmaxKey : List (String × ℚ) → Option String
  | [] => none
  | p :: rest =>
    some ((rest.foldl (fun acc q => if acc.2 < q.2 then q else acc) p).1)

/-- The main loop of `recognize`, iterating test items in order; an empty
score table makes `max` raise, which is uncaught (`.error`). -/
def recognizeLoop (models : List (String × HMMModel)) :
    List FlatData → List (List (String × ℚ)) → List String →
    Except Unit (List (List (String × ℚ)) × List String)
  | [], probabilities, guesses => .ok (probabilities, guesses)
  | item :: rest, probabilities, guesses =>
    let probs_dict := scoreTable models item.1 item.2
    match argmaxKey probs_dict with
    | none => .error ()
    | some g =>
      recognizeLoop models rest (probabilities ++ [probs_dict]) (guesses ++ [g])

/-- `recognize(models, test_set)`: the test set is given as its per-item
(features, lengths) pairs in iteration order (external `SinglesData`). -/
def recognize (models : List (String × HMMModel)) (items : List FlatData) :
    Except Unit (List (List (String × ℚ)) × List String) :=
  recognizeLoop models items [] []

/-- A model whose scoring always fails, for concrete instantiations. -/
def failModel : HMMModel :=
  { n_components := 3, n_features := 1, score := fun _ _ => none }

/-- The log-likelihood returned by `cv_score`, when it returned normally. -/
def cvValue : Except SelState (ℚ × SelState) → Option ℚ
  | .ok p => some p.1
  | .error _ => none

/-! ## Concrete environments used to instantiate the theorems -/

/-- An environment in which every fit attempt fails. -/
def envF : FitEnv := { fit := fun _ _ _ => none, log := fun _ => none }

/-- A one-sequence word configuration with default-style bounds. -/
def cfgF : SelCfg :=
  { this_word := "A", sequences := [[[1]]], n_constant := 3
    min_n_components := 2, max_n_components := 10 }

/-- A two-word state whose mappings agree on their keys. -/
def stF : SelState :=
  { words := [("A", [[[1]]]), ("B", [[[2]]])]
    hwords := [("A", ([[1]], [1])), ("B", ([[2]], [1]))]
    X := [[1]], lengths := [1] }

/-- A model scoring any data by its first entry (so different fold test sets
get different log-likelihoods, without any rational arithmetic). -/
def sumModel (k : ℕ) : HMMModel :=
  { n_components := k, n_features := 1
    score := fun X _ => some (X.flatten.getD 0 0) }

/-- An environment whose fits always succeed with `sumModel`. -/
def envCV3 : FitEnv := { fit := fun k _ _ => some (sumModel k), log := fun _ => some 1 }

/-- A three-sequence word (so cross-validation folds), single candidate k=2. -/
def cfg3 : SelCfg :=
  { this_word := "A", sequences := [[[1]], [[2]], [[3]]], n_constant := 3
    min_n_components := 2, max_n_components := 2 }

/-- The state a selector for `cfg3` is constructed with: `X`, `lengths` are
the word's full flattened data. -/
def st3 : SelState :=
  { words := [("A", [[[1]], [[2]], [[3]]])]
    hwords := [("A", ([[1], [2], [3]], [1, 1, 1]))]
    X := [[1], [2], [3]], lengths := [1, 1, 1] }

/-- A model (for candidate k=2) that fails to score word B's data `[[2]]`,
scores its own word's data `[[1]]` as 100, and anything else as 0. -/
def mD2 : HMMModel :=
  { n_components := 2, n_features := 1
    score := fun X _ =>
      if X = [[2]] then none else if X = [[1]] then some 100 else some 0 }

/-- A model (for candidate k=3) that scores every word's data. -/
def mD3 : HMMModel :=
  { n_components := 3, n_features := 1
    score := fun X _ => if X = [[1]] then some 1 else some 0 }

/-- DIC environment: candidate 2 fits `mD2`, other candidates fit `mD3`. -/
def envD : FitEnv :=
  { fit := fun k _ _ => if k = 2 then some mD2 else some mD3
    log := fun _ => some 1 }

/-- Configuration for the DIC run: candidates 2 and 3. -/
def cfgD : SelCfg :=
  { this_word := "A", sequences := [[[1]]], n_constant := 3
    min_n_components := 2, max_n_components := 3 }

/-- Three-word state for the DIC run. -/
def stD : SelState :=
  { words := [("A", [[[1]]]), ("B", [[[2]]]), ("C", [[[3]]])]
    hwords := [("A", ([[1]], [1])), ("B", ([[2]], [1])), ("C", ([[3]], [1]))]
    X := [[1]], lengths := [1] }

/-- The `other_words` list built for `stD` / `cfgD`. -/
def othersD : List FlatData := [([[2]], [1]), ([[3]], [1])]

/-- A model whose fit always succeeds but whose scoring always fails. -/
def constModel (k : ℕ) : HMMModel :=
  { n_components := k, n_features := 1, score := fun _ _ => none }

/-- Environment whose fits always succeed with `constModel`. -/
def envK : FitEnv := { fit := fun k _ _ => some (constModel k), log := fun _ => some 1 }

/-- A configuration whose fallback state count (11) lies OUTSIDE the search
interval [2, 10] — the constructor does not constrain it. -/
def cfgK : SelCfg :=
  { this_word := "A", sequences := [[[1]]], n_constant := 11
    min_n_components := 2, max_n_components := 10 }

/-- Minimal state for the `cfgK` run. -/
def stK : SelState :=
  { words := [("A", [[[1]]])], hwords := [("A", ([[1]], [1]))]
    X := [[1]], lengths := [1] }

/-- A model with 2 features scoring everything 5, for the BIC formula check. -/
def mB (k : ℕ) : HMMModel :=
  { n_components := k, n_features := 2, score := fun _ _ => some 5 }

/-- Environment fitting `mB`, with `math.log` returning 1. -/
def envB : FitEnv := { fit := fun k _ _ => some (mB k), log := fun _ => some 1 }

/-- Two-sequence word, candidates 2 and 3. -/
def cfgB : SelCfg :=
  { this_word := "A", sequences := [[[1]], [[2]]], n_constant := 3
    min_n_components := 2, max_n_components := 3 }

/-- State for the BIC formula check. -/
def stB : SelState :=
  { words := [("A", [[[1]], [[2]]])], hwords := [("A", ([[1], [2]], [1, 1]))]
    X := [[1], [2]], lengths := [1, 1] }

/-- Models realizing a BIC tie: candidates up to 3 score 1, later ones 0. -/
def mT (k : ℕ) : HMMModel :=
  { n_components := k, n_features := 1
    score := fun _ _ => if k ≤ 3 then some 1 else some 0 }

/-- Environment for the BIC tie (with `log = 0`, BIC reduces to `-2·L`). -/
def envT : FitEnv := { fit := fun k _ _ => some (mT k), log := fun _ => some 0 }

/-- Candidates 2..4, fallback 4, for the tie-break checks. -/
def cfgT : SelCfg :=
  { this_word := "A", sequences := [[[1]]], n_constant := 4
    min_n_components := 2, max_n_components := 4 }

/-- Minimal state for the tie-break checks. -/
def stT : SelState :=
  { words := [("A", [[[1]]]), ("B", [[[9]]])]
    hwords := [("A", ([[1]], [1])), ("B", ([[9]], [1]))]
    X := [[1]], lengths := [1] }

/-- Models realizing a DIC tie: own data `[[1]]` scores 5 for candidates up
to 3 and 0 later; the other word's data `[[9]]` always scores 0. -/
def mU (k : ℕ) : HMMModel :=
  { n_components := k, n_features := 1
    score := fun X _ =>
      if X = [[9]] then some 0 else if k ≤ 3 then some 5 else some 0 }

/-- Environment for the DIC tie. -/
def envU : FitEnv := { fit := fun k _ _ => some (mU k), log := fun _ => some 1 }

/-- The `other_words` list for the DIC tie. -/
def othersT : List FlatData := [([[9]], [1])]

/-- C1: for a test item on which every word model fails to score, `recognize`
does NOT handle the empty score table: `max` over the empty mapping raises an
uncaught `ValueError`, terminating the recognition pass. Concretely, with one
model that fails to score the single test item, recognition ends in failure. -/
theorem C1_empty_score_table_uncaught :
    recognize [("A", failModel)] [([[0]], [1])] = .error () := by
  rfl

/-! ## Lemmas about the shared candidate loop -/

theorem candLoop_cons_none (f : ℕ → Option ℚ) (b : ℚ → ℚ → Bool) {k : ℕ}
    (rest : List ℕ) (acc : Option ℚ × ℕ) (h : f k = none) :
    candLoop f b (k :: rest) acc = candLoop f b rest acc := by
  simp only [candLoop, h]

theorem candLoop_cons_some_none (f : ℕ → Option ℚ) (b : ℚ → ℚ → Bool) {k : ℕ}
    {s : ℚ} (rest : List ℕ) (b0 : ℕ) (h : f k = some s) :
    candLoop f b (k :: rest) (none, b0) = candLoop f b rest (some s, k) := by
  simp only [candLoop, h]

theorem candLoop_cons_some_true (f : ℕ → Option ℚ) (b : ℚ → ℚ → Bool) {k : ℕ}
    {s m : ℚ} (rest : List ℕ) (b0 : ℕ) (h : f k = some s) (hb : b s m = true) :
    candLoop f b (k :: rest) (some m, b0) = candLoop f b rest (some s, k) := by
  simp only [candLoop, h, hb, if_true]

theorem candLoop_cons_some_false (f : ℕ → Option ℚ) (b : ℚ → ℚ → Bool) {k : ℕ}
    {s m : ℚ} (rest : List ℕ) (b0 : ℕ) (h : f k = some s) (hb : b s m = false) :
    candLoop f b (k :: rest) (some m, b0) = candLoop f b rest (some m, b0) := by
  simp only [candLoop, h, hb, Bool.false_eq_true, if_false]

theorem candLoop_skip (f : ℕ → Option ℚ) (b : ℚ → ℚ → Bool) (ks : List ℕ)
    (acc : Option ℚ × ℕ) (h : ∀ k ∈ ks, f k = none) :
    candLoop f b ks acc = acc := by
  induction ks with
  | nil => rfl
  | cons k rest ih =>
    rw [candLoop_cons_none f b rest acc (h k (List.mem_cons_self k rest))]
    exact ih (fun k' hk' => h k' (List.mem_cons_of_mem _ hk'))

theorem candLoop_progress (f : ℕ → Option ℚ) (b : ℚ → ℚ → Bool) (ks : List ℕ)
    (acc : Option ℚ × ℕ) :
    candLoop f b ks acc = acc ∨
      ∃ k ∈ ks, ∃ s, f k = some s ∧ candLoop f b ks acc = (some s, k) := by
  induction ks generalizing acc with
  | nil => exact Or.inl rfl
  | cons k rest ih =>
    obtain ⟨m0, b0⟩ := acc
    cases h : f k with
    | none =>
      rw [candLoop_cons_none f b rest _ h]
      rcases ih (m0, b0) with h1 | ⟨k', hk', s', hs', hr⟩
      · exact Or.inl h1
      · exact Or.inr ⟨k', List.mem_cons_of_mem _ hk', s', hs', hr⟩
    | some s =>
      have step : ∀ acc', acc' = (some s, k) ∨ acc' = (m0, b0) →
          candLoop f b rest acc' = acc' ∨
            (∃ k' ∈ rest, ∃ s', f k' = some s' ∧
              candLoop f b rest acc' = (some s', k')) →
          candLoop f b (k :: rest) (m0, b0) = candLoop f b rest acc' →
          candLoop f b (k :: rest) (m0, b0) = (m0, b0) ∨
            ∃ k' ∈ k :: rest, ∃ s', f k' = some s' ∧
              candLoop f b (k :: rest) (m0, b0) = (some s', k') := by
        rintro acc' (rfl | rfl) (h1 | ⟨k', hk', s', hs', hr⟩) hstep
        · exact Or.inr ⟨k, List.mem_cons_self k rest, s, h, hstep.trans h1⟩
        · exact Or.inr ⟨k', List.mem_cons_of_mem _ hk', s', hs', hstep.trans hr⟩
        · exact Or.inl (hstep.trans h1)
        · exact Or.inr ⟨k', List.mem_cons_of_mem _ hk', s', hs', hstep.trans hr⟩
      cases m0 with
      | none =>
        exact step (some s, k) (Or.inl rfl) (ih _)
          (candLoop_cons_some_none f b rest b0 h)
      | some m =>
        by_cases hb : b s m
        · exact step (some s, k) (Or.inl rfl) (ih _)
            (candLoop_cons_some_true f b rest b0 h hb)
        · exact step (some m, b0) (Or.inr rfl) (ih _)
            (candLoop_cons_some_false f b rest b0 h (Bool.not_eq_true _ ▸ hb))

theorem candLoop_no_update (f : ℕ → Option ℚ) (b : ℚ → ℚ → Bool) (ks : List ℕ)
    (m0 : ℚ) (b0 : ℕ) (h : ∀ k ∈ ks, ∀ v, f k = some v → b v m0 = false) :
    candLoop f b ks (some m0, b0) = (some m0, b0) := by
  induction ks with
  | nil => rfl
  | cons k rest ih =>
    have ih' := ih (fun k' hk' v hv => h k' (List.mem_cons_of_mem _ hk') v hv)
    cases hk : f k with
    | none => rw [candLoop_cons_none f b rest _ hk]; exact ih'
    | some s =>
      rw [candLoop_cons_some_false f b rest b0 hk
        (h k (List.mem_cons_self k rest) s hk)]
      exact ih'

theorem candLoop_append (f : ℕ → Option ℚ) (b : ℚ → ℚ → Bool) (l1 l2 : List ℕ)
    (acc : Option ℚ × ℕ) :
    candLoop f b (l1 ++ l2) acc = candLoop f b l2 (candLoop f b l1 acc) := by
  induction l1 generalizing acc with
  | nil => rfl
  | cons k rest ih =>
    obtain ⟨m0, b0⟩ := acc
    rw [List.cons_append]
    cases h : f k with
    | none =>
      rw [candLoop_cons_none f b (rest ++ l2) _ h, candLoop_cons_none f b rest _ h]
      exact ih _
    | some s =>
      cases m0 with
      | none =>
        rw [candLoop_cons_some_none f b (rest ++ l2) b0 h,
          candLoop_cons_some_none f b rest b0 h]
        exact ih _
      | some m =>
        by_cases hb : b s m
        · rw [candLoop_cons_some_true f b (rest ++ l2) b0 h hb,
            candLoop_cons_some_true f b rest b0 h hb]
          exact ih _
        · have hb' : b s m = false := Bool.not_eq_true _ ▸ hb
          rw [candLoop_cons_some_false f b (rest ++ l2) b0 h hb',
            candLoop_cons_some_false f b rest b0 h hb']
          exact ih _

theorem candLoop_first (f : ℕ → Option ℚ) (b : ℚ → ℚ → Bool)
    (lo cnt k1 : ℕ) (s : ℚ) (b0 : ℕ)
    (h1 : lo ≤ k1) (h2 : k1 < lo + cnt) (hf : f k1 = some s)
    (hpre : ∀ k v, lo ≤ k → k < k1 → f k = some v → b s v = true)
    (hall : ∀ k v, lo ≤ k → k < lo + cnt → f k = some v → b v s = false) :
    candLoop f b (List.range' lo cnt) (none, b0) = (some s, k1) := by
  have hsplit : List.range' lo cnt =
      List.range' lo (k1 - lo) ++ List.range' k1 (cnt - (k1 - lo)) := by
    have happ := List.range'_append lo (k1 - lo) (cnt - (k1 - lo)) 1
    have hlo : lo + 1 * (k1 - lo) = k1 := by omega
    have hcnt : cnt - (k1 - lo) + (k1 - lo) = cnt := by omega
    rw [hlo, hcnt] at happ
    exact happ.symm
  have hsucc : cnt - (k1 - lo) = (cnt - (k1 - lo) - 1) + 1 := by omega
  rw [hsplit, candLoop_append, hsucc, List.range'_succ]
  have hnoup : ∀ b1 : ℕ,
      candLoop f b (List.range' (k1 + 1) (cnt - (k1 - lo) - 1)) (some s, b1) =
        (some s, b1) := by
    intro b1
    apply candLoop_no_update
    intro k hk v hv
    have hk' := List.mem_range'_1.mp hk
    exact hall k v (by omega) (by omega) hv
  rcases candLoop_progress f b (List.range' lo (k1 - lo)) (none, b0) with
    he | ⟨k', hk', s', hs', hr⟩
  · rw [he, candLoop_cons_some_none f b _ b0 hf]
    exact hnoup k1
  · have hk'b := List.mem_range'_1.mp hk'
    have hbs : b s s' = true := hpre k' s' hk'b.1 (by omega) hs'
    rw [hr, candLoop_cons_some_true f b _ k' hf hbs]
    exact hnoup k1

theorem bicBetter_true_iff (s m : ℚ) : bicBetter s m = true ↔ s < m := by
  simp [bicBetter]

theorem dicBetter_true_iff (s m : ℚ) : dicBetter s m = true ↔ m < s := by
  simp [dicBetter]

theorem candLoopMin_mono (f : ℕ → Option ℚ) (ks : List ℕ) :
    ∀ (acc : Option ℚ × ℕ) (m : ℚ), acc.1 = some m →
      ∃ v, (candLoop f bicBetter ks acc).1 = some v ∧ v ≤ m := by
  induction ks with
  | nil =>
    intro acc m h
    exact ⟨m, h, le_refl m⟩
  | cons k rest ih =>
    intro acc m h
    obtain ⟨m0, b0⟩ := acc
    cases h
    cases hk : f k with
    | none =>
      rw [candLoop_cons_none f bicBetter rest _ hk]
      exact ih (some m, b0) m rfl
    | some s =>
      by_cases hb : bicBetter s m
      · rw [candLoop_cons_some_true f bicBetter rest b0 hk hb]
        obtain ⟨v, hv, hle⟩ := ih (some s, k) s rfl
        exact ⟨v, hv, hle.trans (le_of_lt ((bicBetter_true_iff s m).mp hb))⟩
      · rw [candLoop_cons_some_false f bicBetter rest b0 hk
          (Bool.not_eq_true _ ▸ hb)]
        exact ih (some m, b0) m rfl

theorem candLoopMin_le (f : ℕ → Option ℚ) (ks : List ℕ) :
    ∀ (acc : Option ℚ × ℕ) (k : ℕ) (s : ℚ), k ∈ ks → f k = some s →
      ∃ v, (candLoop f bicBetter ks acc).1 = some v ∧ v ≤ s := by
  induction ks with
  | nil => intro _ k _ hk _; cases hk
  | cons k0 rest ih =>
    intro acc k s hk hs
    obtain ⟨m0, b0⟩ := acc
    rcases List.mem_cons.mp hk with rfl | hk'
    · cases m0 with
      | none =>
        rw [candLoop_cons_some_none f bicBetter rest b0 hs]
        exact candLoopMin_mono f rest (some s, k) s rfl
      | some m =>
        by_cases hb : bicBetter s m
        · rw [candLoop_cons_some_true f bicBetter rest b0 hs hb]
          exact candLoopMin_mono f rest (some s, k) s rfl
        · have hms : m ≤ s := le_of_not_lt (fun hlt =>
            hb ((bicBetter_true_iff s m).mpr hlt))
          rw [candLoop_cons_some_false f bicBetter rest b0 hs
            (Bool.not_eq_true _ ▸ hb)]
          obtain ⟨v, hv, hle⟩ := candLoopMin_mono f rest (some m, b0) m rfl
          exact ⟨v, hv, hle.trans hms⟩
    · cases hk0 : f k0 with
      | none =>
        rw [candLoop_cons_none f bicBetter rest _ hk0]
        exact ih (m0, b0) k s hk' hs
      | some s0 =>
        cases m0 with
        | none =>
          rw [candLoop_cons_some_none f bicBetter rest b0 hk0]
          exact ih (some s0, k0) k s hk' hs
        | some m =>
          by_cases hb : bicBetter s0 m
          · rw [candLoop_cons_some_true f bicBetter rest b0 hk0 hb]
            exact ih (some s0, k0) k s hk' hs
          · rw [candLoop_cons_some_false f bicBetter rest b0 hk0
              (Bool.not_eq_true _ ▸ hb)]
            exact ih (some m, b0) k s hk' hs

/-! ## Lemmas about the fold model (KFold) -/

theorem foldBlocks_length (sizes : List ℕ) :
    ∀ start, (foldBlocks sizes start).length = sizes.length := by
  induction sizes with
  | nil => intro start; rfl
  | cons s rest ih =>
    intro start
    simp only [foldBlocks, List.length_cons, ih]

theorem foldBlocks_flatten (sizes : List ℕ) :
    ∀ start, (foldBlocks sizes start).flatten =
      (List.range sizes.sum).map (· + start) := by
  induction sizes with
  | nil => intro start; rfl
  | cons s rest ih =>
    intro start
    simp only [foldBlocks, List.flatten_cons, ih (start + s), List.sum_cons,
      List.range_add, List.map_append, List.map_map]
    congr 1
    apply List.map_congr_left
    intro a _
    simp only [Function.comp_apply]
    omega

theorem foldBlocks_mem (sizes : List ℕ) :
    ∀ start t, t ∈ foldBlocks sizes start →
      ∃ s ∈ sizes, ∃ start', t = (List.range s).map (· + start') := by
  induction sizes with
  | nil => intro start t ht; cases ht
  | cons s rest ih =>
    intro start t ht
    rcases List.mem_cons.mp ht with rfl | ht'
    · exact ⟨s, List.mem_cons_self s rest, start, rfl⟩
    · obtain ⟨s', hs', start', h⟩ := ih (start + s) t ht'
      exact ⟨s', List.mem_cons_of_mem _ hs', start', h⟩

theorem foldSizes_three_sum (n : ℕ) : (foldSizes 3 n).sum = n := by
  have h3 : List.range 3 = [0, 1, 2] := rfl
  simp only [foldSizes, h3, List.map_cons, List.map_nil, List.sum_cons,
    List.sum_nil]
  split_ifs <;> omega

theorem kfoldSplits_length (k n : ℕ) : (kfoldSplits k n).length = k := by
  simp only [kfoldSplits, List.length_map, foldBlocks_length, foldSizes,
    List.length_range]

theorem kfoldSplits_tests (n : ℕ) :
    ((kfoldSplits 3 n).map Prod.snd).flatten = List.range n := by
  have h1 : (kfoldSplits 3 n).map Prod.snd = foldBlocks (foldSizes 3 n) 0 := by
    simp only [kfoldSplits, List.map_map]
    have : Prod.snd ∘ (fun test : List ℕ =>
        ((List.range n).filter (fun j => ¬ j ∈ test), test)) = id := rfl
    rw [this, List.map_id]
  rw [h1, foldBlocks_flatten, foldSizes_three_sum]
  have h2 : ∀ a ∈ List.range n, a + 0 = id a := fun a _ => rfl
  exact (List.map_congr_left h2).trans (List.map_id _)

theorem kfoldSplits_test_nonempty (n : ℕ) (hn : 2 < n) :
    ∀ fold ∈ kfoldSplits 3 n, fold.2 ≠ [] := by
  intro fold hf
  simp only [kfoldSplits, List.mem_map] at hf
  obtain ⟨t, ht, rfl⟩ := hf
  obtain ⟨s, hs, start', rfl⟩ := foldBlocks_mem (foldSizes 3 n) 0 t ht
  have hs1 : 1 ≤ s := by
    simp only [foldSizes, List.mem_map, List.mem_range] at hs
    obtain ⟨i, _, rfl⟩ := hs
    split_ifs <;> omega
  simp only [ne_eq, List.map_eq_nil_iff, List.range_eq_nil]
  omega

/-! ## Lemmas about the cross-validation fold loop -/

theorem runFolds_nil_none (env : FitEnv) (cfg : SelCfg) (k : ℕ) (st : SelState) :
    runFolds env cfg k [] st none = .error st := rfl

theorem runFolds_nil_some (env : FitEnv) (cfg : SelCfg) (k : ℕ) (st : SelState)
    (ll : ℚ) : runFolds env cfg k [] st (some ll) = .ok (ll, st) := rfl

theorem runFolds_cons_fitfail (env : FitEnv) (cfg : SelCfg) (k : ℕ)
    (fold : List ℕ × List ℕ) (rest : List (List ℕ × List ℕ)) (st : SelState)
    (a : Option ℚ)
    (h : env.fit k (trainState cfg st fold).X (trainState cfg st fold).lengths = none) :
    runFolds env cfg k (fold :: rest) st a = .error (trainState cfg st fold) := by
  simp only [runFolds, base_model, h]

theorem runFolds_cons_scorefail (env : FitEnv) (cfg : SelCfg) (k : ℕ)
    (fold : List ℕ × List ℕ) (rest : List (List ℕ × List ℕ)) (st : SelState)
    (a : Option ℚ) (model : HMMModel)
    (hfit : env.fit k (trainState cfg st fold).X (trainState cfg st fold).lengths
      = some model)
    (hsc : model.score (combine_sequences fold.2 cfg.sequences).1
      (combine_sequences fold.2 cfg.sequences).2 = none) :
    runFolds env cfg k (fold :: rest) st a = .error (trainState cfg st fold) := by
  simp only [runFolds, base_model, hfit, hsc]

theorem runFolds_cons_ok (env : FitEnv) (cfg : SelCfg) (k : ℕ)
    (fold : List ℕ × List ℕ) (rest : List (List ℕ × List ℕ)) (st : SelState)
    (a : Option ℚ) (model : HMMModel) (ll : ℚ)
    (hfit : env.fit k (trainState cfg st fold).X (trainState cfg st fold).lengths
      = some model)
    (hsc : model.score (combine_sequences fold.2 cfg.sequences).1
      (combine_sequences fold.2 cfg.sequences).2 = some ll) :
    runFolds env cfg k (fold :: rest) st a =
      runFolds env cfg k rest (trainState cfg st fold) (some ll) := by
  simp only [runFolds, base_model, hfit, hsc]

theorem runFolds_frame (env : FitEnv) (cfg : SelCfg) (k : ℕ) :
    ∀ (fs : List (List ℕ × List ℕ)) (st : SelState) (a : Option ℚ),
      (stateOf (runFolds env cfg k fs st a)).words = st.words ∧
      (stateOf (runFolds env cfg k fs st a)).hwords = st.hwords := by
  intro fs
  induction fs with
  | nil => intro st a; cases a <;> exact ⟨rfl, rfl⟩
  | cons fold rest ih =>
    intro st a
    cases hfit : env.fit k (trainState cfg st fold).X
        (trainState cfg st fold).lengths with
    | none =>
      rw [runFolds_cons_fitfail env cfg k fold rest st a hfit]
      exact ⟨rfl, rfl⟩
    | some model =>
      cases hsc : model.score (combine_sequences fold.2 cfg.sequences).1
          (combine_sequences fold.2 cfg.sequences).2 with
      | none =>
        rw [runFolds_cons_scorefail env cfg k fold rest st a model hfit hsc]
        exact ⟨rfl, rfl⟩
      | some ll =>
        rw [runFolds_cons_ok env cfg k fold rest st a model ll hfit hsc]
        exact ih (trainState cfg st fold) (some ll)

theorem runFolds_shape (env : FitEnv) (cfg : SelCfg) (k : ℕ) :
    ∀ (fs : List (List ℕ × List ℕ)) (st : SelState) (a : Option ℚ), fs ≠ [] →
      ∃ fold ∈ fs, stateOf (runFolds env cfg k fs st a) = trainState cfg st fold := by
  intro fs
  induction fs with
  | nil => intro st a h; exact absurd rfl h
  | cons fold rest ih =>
    intro st a _
    cases hfit : env.fit k (trainState cfg st fold).X
        (trainState cfg st fold).lengths with
    | none =>
      rw [runFolds_cons_fitfail env cfg k fold rest st a hfit]
      exact ⟨fold, List.mem_cons_self fold rest, rfl⟩
    | some model =>
      cases hsc : model.score (combine_sequences fold.2 cfg.sequences).1
          (combine_sequences fold.2 cfg.sequences).2 with
      | none =>
        rw [runFolds_cons_scorefail env cfg k fold rest st a model hfit hsc]
        exact ⟨fold, List.mem_cons_self fold rest, rfl⟩
      | some ll =>
        rw [runFolds_cons_ok env cfg k fold rest st a model ll hfit hsc]
        by_cases hrest : rest = []
        · subst hrest
          exact ⟨fold, List.mem_cons_self fold [], rfl⟩
        · obtain ⟨fold', hmem, heq⟩ := ih (trainState cfg st fold) (some ll) hrest
          exact ⟨fold', List.mem_cons_of_mem _ hmem, heq.trans rfl⟩

theorem runFolds_allfolds (env : FitEnv) (cfg : SelCfg) (k : ℕ) :
    ∀ (fs : List (List ℕ × List ℕ)) (st : SelState) (a : Option ℚ) (ll : ℚ)
      (st' : SelState),
      runFolds env cfg k fs st a = .ok (ll, st') →
      ∀ fold ∈ fs, ∃ model lv,
        env.fit k (combine_sequences fold.1 cfg.sequences).1
          (combine_sequences fold.1 cfg.sequences).2 = some model ∧
        model.score (combine_sequences fold.2 cfg.sequences).1
          (combine_sequences fold.2 cfg.sequences).2 = some lv := by
  intro fs
  induction fs with
  | nil => intro st a ll st' _ fold hf; cases hf
  | cons fold0 rest ih =>
    intro st a ll st' h fold hf
    cases hfit : env.fit k (trainState cfg st fold0).X
        (trainState cfg st fold0).lengths with
    | none =>
      rw [runFolds_cons_fitfail env cfg k fold0 rest st a hfit] at h
      cases h
    | some model =>
      cases hsc : model.score (combine_sequences fold0.2 cfg.sequences).1
          (combine_sequences fold0.2 cfg.sequences).2 with
      | none =>
        rw [runFolds_cons_scorefail env cfg k fold0 rest st a model hfit hsc] at h
        cases h
      | some lv =>
        rw [runFolds_cons_ok env cfg k fold0 rest st a model lv hfit hsc] at h
        rcases List.mem_cons.mp hf with rfl | hmem
        · exact ⟨model, lv, hfit, hsc⟩
        · exact ih (trainState cfg st fold0) (some lv) ll st' h fold hmem

theorem runFolds_last (env : FitEnv) (cfg : SelCfg) (k : ℕ) :
    ∀ (gs : List (List ℕ × List ℕ)) (fold : List ℕ × List ℕ) (st : SelState)
      (a : Option ℚ) (ll : ℚ) (st' : SelState),
      runFolds env cfg k (gs ++ [fold]) st a = .ok (ll, st') →
      ∃ model,
        env.fit k (combine_sequences fold.1 cfg.sequences).1
          (combine_sequences fold.1 cfg.sequences).2 = some model ∧
        model.score (combine_sequences fold.2 cfg.sequences).1
          (combine_sequences fold.2 cfg.sequences).2 = some ll ∧
        st'.X = (combine_sequences fold.1 cfg.sequences).1 ∧
        st'.lengths = (combine_sequences fold.1 cfg.sequences).2 := by
  intro gs
  induction gs with
  | nil =>
    intro fold st a ll st' h
    rw [List.nil_append] at h
    cases hfit : env.fit k (trainState cfg st fold).X
        (trainState cfg st fold).lengths with
    | none =>
      rw [runFolds_cons_fitfail env cfg k fold [] st a hfit] at h
      cases h
    | some model =>
      cases hsc : model.score (combine_sequences fold.2 cfg.sequences).1
          (combine_sequences fold.2 cfg.sequences).2 with
      | none =>
        rw [runFolds_cons_scorefail env cfg k fold [] st a model hfit hsc] at h
        cases h
      | some lv =>
        rw [runFolds_cons_ok env cfg k fold [] st a model lv hfit hsc,
          runFolds_nil_some] at h
        simp only [Except.ok.injEq, Prod.mk.injEq] at h
        obtain ⟨rfl, rfl⟩ := h
        exact ⟨model, hfit, hsc, rfl, rfl⟩
  | cons g gs ih =>
    intro fold st a ll st' h
    rw [List.cons_append] at h
    cases hfit : env.fit k (trainState cfg st g).X
        (trainState cfg st g).lengths with
    | none =>
      rw [runFolds_cons_fitfail env cfg k g (gs ++ [fold]) st a hfit] at h
      cases h
    | some model =>
      cases hsc : model.score (combine_sequences g.2 cfg.sequences).1
          (combine_sequences g.2 cfg.sequences).2 with
      | none =>
        rw [runFolds_cons_scorefail env cfg k g (gs ++ [fold]) st a model hfit hsc]
          at h
        cases h
      | some lv =>
        rw [runFolds_cons_ok env cfg k g (gs ++ [fold]) st a model lv hfit hsc] at h
        exact ih fold (trainState cfg st g) (some lv) ll st' h

/-! ## Lemmas about `cv_score` and the CV candidate loop -/

theorem cv_score_frame (env : FitEnv) (cfg : SelCfg) (st : SelState) (k : ℕ) :
    (stateOf (cv_score env cfg st k)).words = st.words ∧
    (stateOf (cv_score env cfg st k)).hwords = st.hwords := by
  unfold cv_score
  by_cases h : 2 < cfg.sequences.length
  · rw [if_pos h]
    exact runFolds_frame env cfg k _ st none
  · rw [if_neg h]
    split
    · exact ⟨rfl, rfl⟩
    · split
      · exact ⟨rfl, rfl⟩
      · exact ⟨rfl, rfl⟩

theorem cv_score_shape (env : FitEnv) (cfg : SelCfg) (st : SelState) (k : ℕ)
    (hlen : 2 < cfg.sequences.length) :
    ∃ fold ∈ kfoldSplits 3 cfg.sequences.length,
      stateOf (cv_score env cfg st k) = trainState cfg st fold := by
  unfold cv_score
  rw [if_pos hlen]
  apply runFolds_shape
  intro hnil
  have := kfoldSplits_length 3 cfg.sequences.length
  rw [hnil] at this
  cases this

theorem cvLoop_cons_error (env : FitEnv) (cfg : SelCfg) {k : ℕ} (rest : List ℕ)
    (st : SelState) (lls : List ℚ) (ma : Option ℚ) (b : ℕ) {st' : SelState}
    (h : cv_score env cfg st k = .error st') :
    cvLoop env cfg (k :: rest) st lls ma b = cvLoop env cfg rest st' lls ma b := by
  simp only [cvLoop, h]

theorem cvLoop_cons_ok_none (env : FitEnv) (cfg : SelCfg) {k : ℕ} (rest : List ℕ)
    (st : SelState) (lls : List ℚ) (b : ℕ) {ll : ℚ} {st' : SelState}
    (h : cv_score env cfg st k = .ok (ll, st')) :
    cvLoop env cfg (k :: rest) st lls none b =
      cvLoop env cfg rest st' (lls ++ [ll]) (some (listMean (lls ++ [ll]))) k := by
  simp only [cvLoop, h]

theorem cvLoop_cons_ok_lt (env : FitEnv) (cfg : SelCfg) {k : ℕ} (rest : List ℕ)
    (st : SelState) (lls : List ℚ) (m : ℚ) (b : ℕ) {ll : ℚ} {st' : SelState}
    (h : cv_score env cfg st k = .ok (ll, st'))
    (hm : m < listMean (lls ++ [ll])) :
    cvLoop env cfg (k :: rest) st lls (some m) b =
      cvLoop env cfg rest st' (lls ++ [ll]) (some (listMean (lls ++ [ll]))) k := by
  simp only [cvLoop, h]
  rw [if_pos hm]

theorem cvLoop_cons_ok_ge (env : FitEnv) (cfg : SelCfg) {k : ℕ} (rest : List ℕ)
    (st : SelState) (lls : List ℚ) (m : ℚ) (b : ℕ) {ll : ℚ} {st' : SelState}
    (h : cv_score env cfg st k = .ok (ll, st'))
    (hm : ¬ m < listMean (lls ++ [ll])) :
    cvLoop env cfg (k :: rest) st lls (some m) b =
      cvLoop env cfg rest st' (lls ++ [ll]) (some m) b := by
  simp only [cvLoop, h]
  rw [if_neg hm]

theorem cvLoop_frame (env : FitEnv) (cfg : SelCfg) :
    ∀ (ks : List ℕ) (st : SelState) (lls : List ℚ) (ma : Option ℚ) (b : ℕ),
      (cvLoop env cfg ks st lls ma b).1.words = st.words ∧
      (cvLoop env cfg ks st lls ma b).1.hwords = st.hwords := by
  intro ks
  induction ks with
  | nil => intro st lls ma b; exact ⟨rfl, rfl⟩
  | cons k rest ih =>
    intro st lls ma b
    have hframe := cv_score_frame env cfg st k
    cases hcv : cv_score env cfg st k with
    | error st' =>
      rw [hcv] at hframe
      simp only [stateOf] at hframe
      rw [cvLoop_cons_error env cfg rest st lls ma b hcv]
      have hr := ih st' lls ma b
      exact ⟨hr.1.trans hframe.1, hr.2.trans hframe.2⟩
    | ok p =>
      obtain ⟨ll, st'⟩ := p
      rw [hcv] at hframe
      simp only [stateOf] at hframe
      have key : ∀ (lls' : List ℚ) (ma' : Option ℚ) (b' : ℕ),
          (cvLoop env cfg rest st' lls' ma' b').1.words = st.words ∧
          (cvLoop env cfg rest st' lls' ma' b').1.hwords = st.hwords := by
        intro lls' ma' b'
        have hr := ih st' lls' ma' b'
        exact ⟨hr.1.trans hframe.1, hr.2.trans hframe.2⟩
      cases ma with
      | none =>
        rw [cvLoop_cons_ok_none env cfg rest st lls b hcv]
        exact key _ _ _
      | some m =>
        by_cases hm : m < listMean (lls ++ [ll])
        · rw [cvLoop_cons_ok_lt env cfg rest st lls m b hcv hm]
          exact key _ _ _
        · rw [cvLoop_cons_ok_ge env cfg rest st lls m b hcv hm]
          exact key _ _ _

theorem cvLoop_shape (env : FitEnv) (cfg : SelCfg)
    (hlen : 2 < cfg.sequences.length) :
    ∀ (ks : List ℕ) (st : SelState) (lls : List ℚ) (ma : Option ℚ) (b : ℕ),
      (cvLoop env cfg ks st lls ma b).1 = st ∨
        ∃ fold ∈ kfoldSplits 3 cfg.sequences.length,
          (cvLoop env cfg ks st lls ma b).1 = trainState cfg st fold := by
  intro ks
  induction ks with
  | nil => intro st lls ma b; exact Or.inl rfl
  | cons k rest ih =>
    intro st lls ma b
    obtain ⟨fold, hmem, hshape⟩ := cv_score_shape env cfg st k hlen
    cases hcv : cv_score env cfg st k with
    | error st' =>
      rw [hcv] at hshape
      simp only [stateOf] at hshape
      subst hshape
      rw [cvLoop_cons_error env cfg rest st lls ma b hcv]
      rcases ih (trainState cfg st fold) lls ma b with h1 | ⟨fold', hmem', h2⟩
      · exact Or.inr ⟨fold, hmem, h1⟩
      · exact Or.inr ⟨fold', hmem', h2.trans rfl⟩
    | ok p =>
      obtain ⟨ll, st'⟩ := p
      rw [hcv] at hshape
      simp only [stateOf] at hshape
      subst hshape
      have key : ∀ (lls' : List ℚ) (ma' : Option ℚ) (b' : ℕ),
          (cvLoop env cfg rest (trainState cfg st fold) lls' ma' b').1 = st ∨
            ∃ fold'' ∈ kfoldSplits 3 cfg.sequences.length,
              (cvLoop env cfg rest (trainState cfg st fold) lls' ma' b').1 =
                trainState cfg st fold'' := by
        intro lls' ma' b'
        rcases ih (trainState cfg st fold) lls' ma' b' with h1 | ⟨fold', hmem', h2⟩
        · exact Or.inr ⟨fold, hmem, h1⟩
        · exact Or.inr ⟨fold', hmem', h2.trans rfl⟩
      cases ma with
      | none =>
        rw [cvLoop_cons_ok_none env cfg rest st lls b hcv]
        exact key _ _ _
      | some m =>
        by_cases hm : m < listMean (lls ++ [ll])
        · rw [cvLoop_cons_ok_lt env cfg rest st lls m b hcv hm]
          exact key _ _ _
        · rw [cvLoop_cons_ok_ge env cfg rest st lls m b hcv hm]
          exact key _ _ _

theorem cvLoop_len (env : FitEnv) (cfg : SelCfg) :
    ∀ (ks : List ℕ) (st : SelState) (lls : List ℚ) (ma : Option ℚ) (b : ℕ),
      (cvLoop env cfg ks st lls ma b).2.2.length ≤ lls.length + ks.length := by
  intro ks
  induction ks with
  | nil => intro st lls ma b; simp [cvLoop]
  | cons k rest ih =>
    intro st lls ma b
    cases hcv : cv_score env cfg st k with
    | error st' =>
      rw [cvLoop_cons_error env cfg rest st lls ma b hcv]
      have := ih st' lls ma b
      simp only [List.length_cons]
      omega
    | ok p =>
      obtain ⟨ll, st'⟩ := p
      have key : ∀ (ma' : Option ℚ) (b' : ℕ),
          (cvLoop env cfg rest st' (lls ++ [ll]) ma' b').2.2.length ≤
            lls.length + (k :: rest).length := by
        intro ma' b'
        have := ih st' (lls ++ [ll]) ma' b'
        simp only [List.length_append, List.length_cons, List.length_nil] at this ⊢
        omega
      cases ma with
      | none =>
        rw [cvLoop_cons_ok_none env cfg rest st lls b hcv]
        exact key _ _
      | some m =>
        by_cases hm : m < listMean (lls ++ [ll])
        · rw [cvLoop_cons_ok_lt env cfg rest st lls m b hcv hm]
          exact key _ _
        · rw [cvLoop_cons_ok_ge env cfg rest st lls m b hcv hm]
          exact key _ _

theorem cvLoop_allfail (env : FitEnv) (cfg : SelCfg) :
    ∀ (ks : List ℕ) (st : SelState) (lls : List ℚ) (ma : Option ℚ) (b : ℕ),
      (∀ k ∈ ks, ∀ st1 : SelState, ∃ s, cv_score env cfg st1 k = .error s) →
      (cvLoop env cfg ks st lls ma b).2.1 = b ∧
      (cvLoop env cfg ks st lls ma b).2.2 = lls := by
  intro ks
  induction ks with
  | nil => intro st lls ma b _; exact ⟨rfl, rfl⟩
  | cons k rest ih =>
    intro st lls ma b h
    obtain ⟨s, hs⟩ := h k (List.mem_cons_self k rest) st
    rw [cvLoop_cons_error env cfg rest st lls ma b hs]
    exact ih s lls ma b (fun k' hk' st1 => h k' (List.mem_cons_of_mem _ hk') st1)

theorem cvLoop_best_mem (env : FitEnv) (cfg : SelCfg) :
    ∀ (ks : List ℕ) (st : SelState) (lls : List ℚ) (ma : Option ℚ) (b : ℕ),
      (cvLoop env cfg ks st lls ma b).2.1 = b ∨
      (cvLoop env cfg ks st lls ma b).2.1 ∈ ks := by
  intro ks
  induction ks with
  | nil => intro st lls ma b; exact Or.inl rfl
  | cons k rest ih =>
    intro st lls ma b
    cases hcv : cv_score env cfg st k with
    | error st' =>
      rw [cvLoop_cons_error env cfg rest st lls ma b hcv]
      rcases ih st' lls ma b with h1 | h1
      · exact Or.inl h1
      · exact Or.inr (List.mem_cons_of_mem _ h1)
    | ok p =>
      obtain ⟨ll, st'⟩ := p
      have key : ∀ (ma' : Option ℚ),
          (cvLoop env cfg rest st' (lls ++ [ll]) ma' k).2.1 = b ∨
          (cvLoop env cfg rest st' (lls ++ [ll]) ma' k).2.1 ∈ k :: rest := by
        intro ma'
        rcases ih st' (lls ++ [ll]) ma' k with h1 | h1
        · exact Or.inr (by rw [h1]; exact List.mem_cons_self k rest)
        · exact Or.inr (List.mem_cons_of_mem _ h1)
      cases ma with
      | none =>
        rw [cvLoop_cons_ok_none env cfg rest st lls b hcv]
        exact key _
      | some m =>
        by_cases hm : m < listMean (lls ++ [ll])
        · rw [cvLoop_cons_ok_lt env cfg rest st lls m b hcv hm]
          exact key _
        · rw [cvLoop_cons_ok_ge env cfg rest st lls m b hcv hm]
          rcases ih st' (lls ++ [ll]) (some m) b with h1 | h1
          · exact Or.inl h1
          · exact Or.inr (List.mem_cons_of_mem _ h1)

/-! ## Miscellaneous helper lemmas -/

theorem scoreAll_none (model : HMMModel) :
    ∀ (l : List FlatData) (w : FlatData), w ∈ l → model.score w.1 w.2 = none →
      scoreAll model l = none := by
  intro l
  induction l with
  | nil => intro w hw; cases hw
  | cons y rest ih =>
    intro w hw hg
    rcases List.mem_cons.mp hw with rfl | hw'
    · simp only [scoreAll, hg]
    · cases hy : model.score y.1 y.2 with
      | none => simp only [scoreAll, hy]
      | some s => simp only [scoreAll, hy, ih w hw' hg]

theorem buildOtherWords_isOk (hwords : List (String × FlatData)) (tw : String) :
    ∀ words : List (String × List Obs),
      (∀ p ∈ words, p.1 ≠ tw → (hwords.lookup p.1).isSome = true) →
      ∃ l, buildOtherWords hwords tw words = .ok l := by
  intro words
  induction words with
  | nil => intro _; exact ⟨[], rfl⟩
  | cons p rest ih =>
    intro h
    obtain ⟨l, hl⟩ := ih (fun q hq => h q (List.mem_cons_of_mem _ hq))
    by_cases hp : p.1 = tw
    · exact ⟨l, by simp only [buildOtherWords, if_pos hp]; exact hl⟩
    · have hs := h p (List.mem_cons_self p rest) hp
      cases hlk : hwords.lookup p.1 with
      | none => rw [hlk] at hs; cases hs
      | some d =>
        refine ⟨d :: l, ?_⟩
        simp only [buildOtherWords, if_neg hp, hlk, hl]
        rfl

theorem candLoop_best (f : ℕ → Option ℚ) (b : ℚ → ℚ → Bool) (ks : List ℕ)
    (b0 : ℕ) :
    (candLoop f b ks (none, b0)).2 = b0 ∨ (candLoop f b ks (none, b0)).2 ∈ ks := by
  rcases candLoop_progress f b ks (none, b0) with h | ⟨k, hk, s, hs, hr⟩
  · left; rw [h]
  · right; rw [hr]; exact hk

theorem searchRange_bounds (cfg : SelCfg) (k : ℕ) (hk : k ∈ searchRange cfg) :
    cfg.min_n_components ≤ k ∧ k ≤ cfg.max_n_components := by
  have := List.mem_range'_1.mp hk
  omega

theorem searchRange_ne_nil (cfg : SelCfg)
    (h : cfg.min_n_components ≤ cfg.max_n_components) : searchRange cfg ≠ [] := by
  simp only [searchRange, ne_eq, List.range'_eq_nil]
  omega

theorem cvLoop_shape_ne (env : FitEnv) (cfg : SelCfg)
    (hlen : 2 < cfg.sequences.length) (ks : List ℕ) (st : SelState)
    (lls : List ℚ) (ma : Option ℚ) (b : ℕ) (hne : ks ≠ []) :
    ∃ fold ∈ kfoldSplits 3 cfg.sequences.length,
      (cvLoop env cfg ks st lls ma b).1 = trainState cfg st fold := by
  cases ks with
  | nil => exact absurd rfl hne
  | cons k rest =>
    obtain ⟨fold, hmem, hshape⟩ := cv_score_shape env cfg st k hlen
    cases hcv : cv_score env cfg st k with
    | error st' =>
      rw [hcv] at hshape
      simp only [stateOf] at hshape
      subst hshape
      rw [cvLoop_cons_error env cfg rest st lls ma b hcv]
      rcases cvLoop_shape env cfg hlen rest (trainState cfg st fold) lls ma b with
        h1 | ⟨fold', hm', h2⟩
      · exact ⟨fold, hmem, h1⟩
      · exact ⟨fold', hm', h2.trans rfl⟩
    | ok p =>
      obtain ⟨ll, st'⟩ := p
      rw [hcv] at hshape
      simp only [stateOf] at hshape
      subst hshape
      have key : ∀ (lls' : List ℚ) (ma' : Option ℚ) (b' : ℕ),
          ∃ fold'' ∈ kfoldSplits 3 cfg.sequences.length,
            (cvLoop env cfg rest (trainState cfg st fold) lls' ma' b').1 =
              trainState cfg st fold'' := by
        intro lls' ma' b'
        rcases cvLoop_shape env cfg hlen rest (trainState cfg st fold) lls' ma' b'
          with h1 | ⟨fold', hm', h2⟩
        · exact ⟨fold, hmem, h1⟩
        · exact ⟨fold', hm', h2.trans rfl⟩
      cases ma with
      | none =>
        rw [cvLoop_cons_ok_none env cfg rest st lls b hcv]
        exact key _ _ _
      | some m =>
        by_cases hm : m < listMean (lls ++ [ll])
        · rw [cvLoop_cons_ok_lt env cfg rest st lls m b hcv hm]
          exact key _ _ _
        · rw [cvLoop_cons_ok_ge env cfg rest st lls m b hcv hm]
          exact key _ _ _

/-! ## The claims -/

/-- C2 counterexample: a candidate state count whose three folds all fit and
score successfully (the fold test scores are 1, 2 and 3) contributes exactly
ONE entry (the last fold's 3) to the running `log_likelihoods` list, not one
entry per fold as claimed: after the candidate the list is `[3]`, of length 1,
although there are 3 folds. -/
theorem C2_counterexample :
    cvValue (cv_score envCV3 cfg3 st3 2) = some 3 ∧
    (kfoldSplits 3 cfg3.sequences.length).length = 3 ∧
    (cvRun envCV3 cfg3 st3).2.2 = [3] := by
  exact ⟨rfl, rfl, rfl⟩

/-- C2 (amended): in `SelectorCV.select`, whenever a candidate's fold loop
returns normally, every fold's model is indeed fit on that fold's
concatenated train-index sequences and scored on the concatenated test-index
sequences, BUT only the last fold's log-likelihood is the value returned by
`cv_score`, and the running list receives at most one entry per candidate
(never one entry per fold). -/
theorem C2_cv_fold_scores :
    (∀ (env : FitEnv) (cfg : SelCfg) (k : ℕ) (fs : List (List ℕ × List ℕ))
      (st : SelState) (a : Option ℚ) (ll : ℚ) (st' : SelState),
      runFolds env cfg k fs st a = .ok (ll, st') →
      ∀ fold ∈ fs, ∃ model lv,
        env.fit k (combine_sequences fold.1 cfg.sequences).1
          (combine_sequences fold.1 cfg.sequences).2 = some model ∧
        model.score (combine_sequences fold.2 cfg.sequences).1
          (combine_sequences fold.2 cfg.sequences).2 = some lv) ∧
    (∀ (env : FitEnv) (cfg : SelCfg) (k : ℕ) (gs : List (List ℕ × List ℕ))
      (fold : List ℕ × List ℕ) (st : SelState) (a : Option ℚ) (ll : ℚ)
      (st' : SelState),
      runFolds env cfg k (gs ++ [fold]) st a = .ok (ll, st') →
      ∃ model,
        env.fit k (combine_sequences fold.1 cfg.sequences).1
          (combine_sequences fold.1 cfg.sequences).2 = some model ∧
        model.score (combine_sequences fold.2 cfg.sequences).1
          (combine_sequences fold.2 cfg.sequences).2 = some ll) ∧
    (∀ (env : FitEnv) (cfg : SelCfg) (ks : List ℕ) (st : SelState)
      (lls : List ℚ) (ma : Option ℚ) (b : ℕ),
      (cvLoop env cfg ks st lls ma b).2.2.length ≤ lls.length + ks.length) := by
  refine ⟨?_, ?_, ?_⟩
  · intro env cfg k fs st a ll st' h fold hf
    exact runFolds_allfolds env cfg k fs st a ll st' h fold hf
  · intro env cfg k gs fold st a ll st' h
    obtain ⟨model, hm1, hm2, _, _⟩ := runFolds_last env cfg k gs fold st a ll st' h
    exact ⟨model, hm1, hm2⟩
  · intro env cfg ks st lls ma b
    exact cvLoop_len env cfg ks st lls ma b

/-- C2 witness: the amended statement applied to the concrete three-fold run;
the last fold fits on sequences 0 and 1 and its test sequence 2 scores 3. -/
theorem C2_witness :
    envCV3.fit 2 (combine_sequences [0, 1] cfg3.sequences).1
      (combine_sequences [0, 1] cfg3.sequences).2 = some (sumModel 2) ∧
    (sumModel 2).score (combine_sequences [2] cfg3.sequences).1
      (combine_sequences [2] cfg3.sequences).2 = some 3 := by
  obtain ⟨model, hm1, hm2⟩ := C2_cv_fold_scores.2.1 envCV3 cfg3 2
    [([1, 2], [0]), ([0, 2], [1])] ([0, 1], [2]) st3 none 3
    ⟨st3.words, st3.hwords, [[1], [2]], [1, 1]⟩ rfl
  have hfit : envCV3.fit 2 (combine_sequences [0, 1] cfg3.sequences).1
      (combine_sequences [0, 1] cfg3.sequences).2 = some (sumModel 2) := rfl
  have hm : model = sumModel 2 := Option.some.inj (hm1.symm.trans hfit)
  exact ⟨hfit, hm ▸ hm2⟩

/-- C3 counterexample: after `SelectorCV.select` on a 3-sequence word whose
constructed flattened data is `[[1],[2],[3]]`, the stored `self.X` is the last
fold's training subset `[[1],[2]]` — the fold overwrite was never undone, so
the stored data does NOT equal the data the selector was constructed with. -/
theorem C3_counterexample :
    (selectCVfull envCV3 cfg3 st3).2.X = [[1], [2]] ∧
    st3.X = [[1], [2], [3]] ∧
    (selectCVfull envCV3 cfg3 st3).2.X ≠ st3.X := by
  exact ⟨rfl, rfl, by decide⟩

/-- C3 (amended): the fold overwrite is NOT strategy-local-and-temporary:
whenever the word has more than 2 sequences and the search interval is
nonempty, after `SelectorCV.select` the selector's stored flattened data is
the training subset of one of the folds, and the final returned model is fit
on that overwritten data rather than on the word's full data. -/
theorem C3_overwrite_persists (env : FitEnv) (cfg : SelCfg) (st : SelState)
    (hlen : 2 < cfg.sequences.length)
    (hrange : cfg.min_n_components ≤ cfg.max_n_components) :
    ∃ fold ∈ kfoldSplits 3 cfg.sequences.length,
      (selectCVfull env cfg st).2 = trainState cfg st fold ∧
      (selectCVfull env cfg st).1 =
        env.fit (cvRun env cfg st).2.1 (trainState cfg st fold).X
          (trainState cfg st fold).lengths := by
  obtain ⟨fold, hmem, hshape⟩ := cvLoop_shape_ne env cfg hlen (searchRange cfg)
    st [] none cfg.n_constant (searchRange_ne_nil cfg hrange)
  refine ⟨fold, hmem, hshape, ?_⟩
  show env.fit (cvRun env cfg st).2.1 (cvRun env cfg st).1.X
    (cvRun env cfg st).1.lengths = _
  rw [show (cvRun env cfg st).1 = trainState cfg st fold from hshape]

/-- C3 witness: the amended statement at the concrete three-fold run. -/
theorem C3_witness :
    (selectCVfull envCV3 cfg3 st3).1 =
      envCV3.fit (cvRun envCV3 cfg3 st3).2.1
        (selectCVfull envCV3 cfg3 st3).2.X
        (selectCVfull envCV3 cfg3 st3).2.lengths := by
  obtain ⟨fold, hmem, h1, h2⟩ := C3_overwrite_persists envCV3 cfg3 st3
    (by decide) (by decide)
  rw [h1]
  exact h2

/-- C4: for every candidate that fits and scores successfully, `SelectorBIC`
computes `BIC = -2·L + p·ln N` with `p = k² + 2·k·F` (`F` the model's feature
count, `k` its state count which the fitter contract makes the requested
count, `N = len(self.sequences)` the number of training sequences), and the
chosen `best_num_components` attains the minimum BIC over all successfully
scored candidates in the search interval. -/
theorem C4_bic_formula_and_min :
    (∀ (env : FitEnv) (cfg : SelCfg) (st : SelState) (k : ℕ) (model : HMMModel)
      (L lnN : ℚ),
      env.fit k st.X st.lengths = some model →
      model.n_components = k →
      model.score st.X st.lengths = some L →
      env.log cfg.sequences.length = some lnN →
      score_BIC env cfg st k =
        some (-2 * L + ((k ^ 2 + 2 * k * model.n_features : ℕ) : ℚ) * lnN)) ∧
    (∀ (env : FitEnv) (cfg : SelCfg) (st : SelState) (k0 : ℕ) (s0 : ℚ),
      k0 ∈ searchRange cfg → score_BIC env cfg st k0 = some s0 →
      ∃ sb, score_BIC env cfg st (bestBIC env cfg st) = some sb ∧
        ∀ k ∈ searchRange cfg, ∀ s, score_BIC env cfg st k = some s → sb ≤ s) := by
  constructor
  · intro env cfg st k model L lnN hfit hnc hsc hlog
    simp only [score_BIC, base_model, hfit, hsc, hlog, hnc]
  · intro env cfg st k0 s0 hk0 hs0
    obtain ⟨v, hv, _⟩ := candLoopMin_le (score_BIC env cfg st) (searchRange cfg)
      (none, cfg.n_constant) k0 s0 hk0 hs0
    rcases candLoop_progress (score_BIC env cfg st) bicBetter (searchRange cfg)
      (none, cfg.n_constant) with h | ⟨k', hk', s', hs', hr⟩
    · rw [h] at hv
      cases hv
    · have hvs : s' = v := by
        rw [hr] at hv
        exact Option.some.inj hv
      refine ⟨v, ?_, ?_⟩
      · have hb : bestBIC env cfg st = k' := by
          unfold bestBIC
          rw [hr]
        rw [hb, hs', hvs]
      · intro k hk s hs
        obtain ⟨v2, hv2, hle2⟩ := candLoopMin_le (score_BIC env cfg st)
          (searchRange cfg) (none, cfg.n_constant) k s hk hs
        rw [hv] at hv2
        rw [Option.some.inj hv2]
        exact hle2

/-- C4 witness: in a concrete environment (two training sequences, feature
count 2, log-likelihood 5, `ln N = 1`) candidate 2 gets BIC
`-2·5 + (4 + 8)·1 = 2`, and the chosen candidate attains the minimum. -/
theorem C4_witness :
    score_BIC envB cfgB stB 2 = some 2 ∧
    (score_BIC envB cfgB stB (bestBIC envB cfgB stB)).isSome = true := by
  have hval : score_BIC envB cfgB stB 2 = some 2 := by
    have h := C4_bic_formula_and_min.1 envB cfgB stB 2 (mB 2) 5 1 rfl rfl rfl rfl
    rw [h]
    norm_num [mB]
  obtain ⟨sb, hsb, _⟩ := C4_bic_formula_and_min.2 envB cfgB stB 2 2 (by decide) hval
  exact ⟨hval, by rw [hsb]; rfl⟩

/-- C5: no strategy raises past `select()`: `base_model` returns the explicit
failure value on a failed fit; with every candidate failing, BIC returns the
fit at the fallback count with the state unchanged; DIC returns normally
whenever the flattened-data mapping covers the word mapping, and with every
candidate failing returns the fallback fit; CV, with every candidate
raising, still chooses the fallback count and returns the fit at it. -/
theorem C5_never_raises (env : FitEnv) (cfg : SelCfg) (st : SelState) :
    (∀ k, env.fit k st.X st.lengths = none → base_model env st k = none) ∧
    selectConstant env cfg st = (base_model env st cfg.n_constant, st) ∧
    ((∀ k ∈ searchRange cfg, score_BIC env cfg st k = none) →
      selectBIC env cfg st = (base_model env st cfg.n_constant, st)) ∧
    ((∀ p ∈ st.words, p.1 ≠ cfg.this_word →
        (st.hwords.lookup p.1).isSome = true) →
      ∃ out, selectDIC env cfg st = .ok out) ∧
    (∀ ow, buildOtherWords st.hwords cfg.this_word st.words = .ok ow →
      (∀ k ∈ searchRange cfg, score_DIC env st ow k = none) →
      selectDIC env cfg st = .ok (base_model env st cfg.n_constant, st)) ∧
    ((∀ k ∈ searchRange cfg, ∀ st1 : SelState,
        ∃ s, cv_score env cfg st1 k = .error s) →
      (cvRun env cfg st).2.1 = cfg.n_constant ∧
      (selectCVfull env cfg st).1 =
        env.fit cfg.n_constant (cvRun env cfg st).1.X
          (cvRun env cfg st).1.lengths) := by
  refine ⟨fun k h => h, rfl, ?_, ?_, ?_, ?_⟩
  · intro h
    unfold selectBIC bestBIC
    rw [candLoop_skip _ _ _ _ h]
  · intro h
    obtain ⟨l, hl⟩ := buildOtherWords_isOk st.hwords cfg.this_word st.words h
    refine ⟨(base_model env st (bestDIC env cfg st l), st), ?_⟩
    unfold selectDIC
    rw [hl]
  · intro ow how h
    simp only [selectDIC, bestDIC, how]
    rw [candLoop_skip _ _ _ _ h]
  · intro h
    have hall := cvLoop_allfail env cfg (searchRange cfg) st [] none
      cfg.n_constant h
    refine ⟨hall.1, ?_⟩
    show env.fit (cvRun env cfg st).2.1 (cvRun env cfg st).1.X
      (cvRun env cfg st).1.lengths = _
    rw [show (cvRun env cfg st).2.1 = cfg.n_constant from hall.1]

/-- C5 witness: in the always-failing environment, every part of the
never-raises theorem holds concretely: all selectors return the explicit
failure value through the fallback fit, none of them raising. -/
theorem C5_witness :
    base_model envF stF 5 = none ∧
    selectConstant envF cfgF stF = (base_model envF stF cfgF.n_constant, stF) ∧
    selectBIC envF cfgF stF = (base_model envF stF cfgF.n_constant, stF) ∧
    selectDIC envF cfgF stF = .ok (base_model envF stF cfgF.n_constant, stF) ∧
    (cvRun envF cfgF stF).2.1 = cfgF.n_constant := by
  have h := C5_never_raises envF cfgF stF
  exact ⟨h.1 5 rfl, h.2.1, h.2.2.1 (fun k _ => rfl),
    h.2.2.2.2.1 [([[2]], [1])] rfl (fun k _ => rfl),
    (h.2.2.2.2.2 (fun k _ st1 => ⟨st1, rfl⟩)).1⟩

/-- C6 counterexample: candidate 2's model scores its own word 100 and other
word C 0, so the mean anti-likelihood is computable from the remainder after
word B's scoring failure — yet `score_DIC` raises for the candidate (the list
comprehension aborts), the candidate is skipped entirely, and candidate 3
(whose DIC score is only 1) is selected instead. -/
theorem C6_counterexample :
    score_DIC envD stD othersD 2 = none ∧
    mD2.score stD.X stD.lengths = some 100 ∧
    mD2.score [[3]] [1] = some 0 ∧
    bestDIC envD cfgD stD othersD = 3 := by
  exact ⟨rfl, rfl, rfl, rfl⟩

/-- C6 (amended): in `SelectorDIC`, a failure scoring ANY individual
other-word is fatal to the candidate: the whole anti-likelihood list
comprehension raises, `score_DIC` fails, and the candidate is skipped — even
when every remaining other-word scores successfully. -/
theorem C6_other_word_failure_fatal (env : FitEnv) (st : SelState)
    (others : List FlatData) (k : ℕ) (model : HMMModel) (w : FlatData)
    (hfit : base_model env st k = some model) (hw : w ∈ others)
    (hsc : model.score w.1 w.2 = none) :
    score_DIC env st others k = none := by
  simp only [score_DIC, hfit, scoreAll_none model others w hw hsc]

/-- C6 witness: the amended statement at the concrete environment in which
word B's data fails to score under candidate 2's model. -/
theorem C6_witness : score_DIC envD stD othersD 2 = none :=
  C6_other_word_failure_fatal envD stD othersD 2 mD2 ([[2]], [1]) rfl
    (by decide) rfl

/-- C7 counterexample: with the fallback state count 11 outside the search
interval [2, 10] (the constructor does not constrain it) and a fitter that
always succeeds, `SelectorConstant.select` returns a model with 11 states —
outside `[min_n_components, max_n_components]`. -/
theorem C7_counterexample :
    (selectConstant envK cfgK stK).1 = some (constModel 11) ∧
    (constModel 11).n_components = 11 ∧
    cfgK.min_n_components = 2 ∧ cfgK.max_n_components = 10 ∧
    ¬ (constModel 11).n_components ≤ cfgK.max_n_components := by
  exact ⟨rfl, rfl, rfl, rfl, by decide⟩

/-- C7 (amended): provided the fallback state count lies inside
`[min_n_components, max_n_components]` (true under the defaults 3 ∈ [2,10])
and the fitter honors its contract (the fitted model's state count is the
requested one), every strategy's non-null result has its number of states in
the closed search interval. -/
theorem C7_states_in_range (env : FitEnv) (cfg : SelCfg) (strat : Strategy)
    (st : SelState) (r : Option HMMModel) (st' : SelState) (m : HMMModel)
    (hcontract : ∀ (k : ℕ) (X : List (List ℚ)) (l : List ℕ) (mm : HMMModel),
      env.fit k X l = some mm → mm.n_components = k)
    (h1 : cfg.min_n_components ≤ cfg.n_constant)
    (h2 : cfg.n_constant ≤ cfg.max_n_components)
    (h : runSelect env cfg strat st = .ok (r, st')) (hr : r = some m) :
    cfg.min_n_components ≤ m.n_components ∧
      m.n_components ≤ cfg.max_n_components := by
  subst hr
  have bound : ∀ best : ℕ, best = cfg.n_constant ∨ best ∈ searchRange cfg →
      ∀ stX : SelState, env.fit best stX.X stX.lengths = some m →
      cfg.min_n_components ≤ m.n_components ∧
        m.n_components ≤ cfg.max_n_components := by
    intro best hbest stX hfit
    have hnc := hcontract best stX.X stX.lengths m hfit
    rcases hbest with rfl | hmem
    · omega
    · have hsb := searchRange_bounds cfg best hmem
      omega
  cases strat with
  | constant =>
    simp only [runSelect, selectConstant, Except.ok.injEq, Prod.mk.injEq] at h
    exact bound cfg.n_constant (Or.inl rfl) st h.1
  | bic =>
    simp only [runSelect, selectBIC, Except.ok.injEq, Prod.mk.injEq] at h
    exact bound (bestBIC env cfg st)
      (candLoop_best (score_BIC env cfg st) bicBetter (searchRange cfg)
        cfg.n_constant) st h.1
  | dic =>
    simp only [runSelect, selectDIC] at h
    cases hbow : buildOtherWords st.hwords cfg.this_word st.words with
    | error e =>
      simp only [hbow] at h
      exact Except.noConfusion h
    | ok ow =>
      simp only [hbow, Except.ok.injEq, Prod.mk.injEq] at h
      exact bound (bestDIC env cfg st ow)
        (candLoop_best (score_DIC env st ow) dicBetter (searchRange cfg)
          cfg.n_constant) st h.1
  | cv =>
    simp only [runSelect, selectCVfull, Except.ok.injEq, Prod.mk.injEq] at h
    exact bound ((cvRun env cfg st).2.1)
      (cvLoop_best_mem env cfg (searchRange cfg) st [] none cfg.n_constant)
      ((cvRun env cfg st).1) h.1

/-- C7 witness: the amended statement at a concrete conforming run (fallback
3 inside [2, 3], Constant strategy, fit succeeding with 3 states). -/
theorem C7_witness :
    cfgB.min_n_components ≤ (mB 3).n_components ∧
    (mB 3).n_components ≤ cfgB.max_n_components :=
  C7_states_in_range envB cfgB .constant stB (some (mB 3)) stB (mB 3)
    (fun k X l mm hm => by rw [← Option.some.inj hm]; rfl)
    (by decide) (by decide) rfl rfl

/-- C8: in both `SelectorBIC` and `SelectorDIC`, the strict comparison in the
candidate loop means the FIRST state count attaining the optimal score (in
ascending order) is selected; a later candidate with an equal score never
replaces it. -/
theorem C8_first_optimum_wins :
    (∀ (env : FitEnv) (cfg : SelCfg) (st : SelState) (k1 : ℕ) (s : ℚ),
      cfg.min_n_components ≤ k1 → k1 ≤ cfg.max_n_components →
      score_BIC env cfg st k1 = some s →
      (∀ (k : ℕ) (v : ℚ), cfg.min_n_components ≤ k → k < k1 →
        score_BIC env cfg st k = some v → s < v) →
      (∀ (k : ℕ) (v : ℚ), k ∈ searchRange cfg →
        score_BIC env cfg st k = some v → s ≤ v) →
      bestBIC env cfg st = k1) ∧
    (∀ (env : FitEnv) (cfg : SelCfg) (st : SelState) (ow : List FlatData)
      (k1 : ℕ) (s : ℚ),
      cfg.min_n_components ≤ k1 → k1 ≤ cfg.max_n_components →
      score_DIC env st ow k1 = some s →
      (∀ (k : ℕ) (v : ℚ), cfg.min_n_components ≤ k → k < k1 →
        score_DIC env st ow k = some v → v < s) →
      (∀ (k : ℕ) (v : ℚ), k ∈ searchRange cfg →
        score_DIC env st ow k = some v → v ≤ s) →
      bestDIC env cfg st ow = k1) := by
  constructor
  · intro env cfg st k1 s h1 h2 hf hpre hall
    have hfirst := candLoop_first (score_BIC env cfg st) bicBetter
      cfg.min_n_components (cfg.max_n_components + 1 - cfg.min_n_components)
      k1 s cfg.n_constant h1 (by omega) hf
      (fun k v hk hkk hv => decide_eq_true (hpre k v hk hkk hv))
      (fun k v hk hkk hv => decide_eq_false
        (not_lt.mpr (hall k v (List.mem_range'_1.mpr ⟨hk, hkk⟩) hv)))
    unfold bestBIC searchRange
    rw [hfirst]
  · intro env cfg st ow k1 s h1 h2 hf hpre hall
    have hfirst := candLoop_first (score_DIC env st ow) dicBetter
      cfg.min_n_components (cfg.max_n_components + 1 - cfg.min_n_components)
      k1 s cfg.n_constant h1 (by omega) hf
      (fun k v hk hkk hv => decide_eq_true (hpre k v hk hkk hv))
      (fun k v hk hkk hv => decide_eq_false
        (not_lt.mpr (hall k v (List.mem_range'_1.mpr ⟨hk, hkk⟩) hv)))
    unfold bestDIC searchRange
    rw [hfirst]

/-- C8 witness: concrete ties — BIC scores (-2, -2, 0) over candidates
(2, 3, 4) select 2, and DIC scores (5, 5, 0) select 2: the later equal
candidate 3 never replaces the first. -/
theorem C8_witness :
    bestBIC envT cfgT stT = 2 ∧ bestDIC envU cfgT stT othersT = 2 := by
  have e2 : score_BIC envT cfgT stT 2 = some (-2) := by
    simp [score_BIC, base_model, envT, mT, cfgT, stT]
  have e3 : score_BIC envT cfgT stT 3 = some (-2) := by
    simp [score_BIC, base_model, envT, mT, cfgT, stT]
  have e4 : score_BIC envT cfgT stT 4 = some 0 := by
    simp [score_BIC, base_model, envT, mT, cfgT, stT]
  have d2 : score_DIC envU stT othersT 2 = some 5 := by
    simp [score_DIC, base_model, scoreAll, envU, mU, stT, othersT, listMean]
  have d3 : score_DIC envU stT othersT 3 = some 5 := by
    simp [score_DIC, base_model, scoreAll, envU, mU, stT, othersT, listMean]
  have d4 : score_DIC envU stT othersT 4 = some 0 := by
    simp [score_DIC, base_model, scoreAll, envU, mU, stT, othersT, listMean]
  constructor
  · refine C8_first_optimum_wins.1 envT cfgT stT 2 (-2) (by decide) (by decide)
      e2 ?_ ?_
    · intro k v hk hkk _
      have hk' : 2 ≤ k := hk
      exact absurd hkk (by omega)
    · intro k v hk hv
      obtain ⟨hb1, hb2⟩ := searchRange_bounds cfgT k hk
      have hb1' : 2 ≤ k := hb1
      have hb2' : k ≤ 4 := hb2
      interval_cases k
      · rw [e2] at hv
        injection hv with h
        rw [← h]
      · rw [e3] at hv
        injection hv with h
        rw [← h]
      · rw [e4] at hv
        injection hv with h
        rw [← h]
        norm_num
  · refine C8_first_optimum_wins.2 envU cfgT stT othersT 2 5 (by decide)
      (by decide) d2 ?_ ?_
    · intro k v hk hkk _
      have hk' : 2 ≤ k := hk
      exact absurd hkk (by omega)
    · intro k v hk hv
      obtain ⟨hb1, hb2⟩ := searchRange_bounds cfgT k hk
      have hb1' : 2 ≤ k := hb1
      have hb2' : k ≤ 4 := hb2
      interval_cases k
      · rw [d2] at hv
        injection hv with h
        rw [← h]
      · rw [d3] at hv
        injection hv with h
        rw [← h]
      · rw [d4] at hv
        injection hv with h
        rw [← h]
        norm_num

/-- C9: under the default configuration, for a word with more than 2
sequences the fold splitter used by `SelectorCV` partitions the word's
sequence indices into exactly 3 nonempty folds (the test blocks concatenate
to the full index range), and `cv_score` cross-validates every candidate over
exactly those folds. -/
theorem C9_three_folds (cfg : SelCfg) (hlen : 2 < cfg.sequences.length) :
    (kfoldSplits 3 cfg.sequences.length).length = 3 ∧
    ((kfoldSplits 3 cfg.sequences.length).map Prod.snd).flatten =
      List.range cfg.sequences.length ∧
    (∀ fold ∈ kfoldSplits 3 cfg.sequences.length, fold.2 ≠ []) ∧
    ∀ (env : FitEnv) (st : SelState) (k : ℕ),
      cv_score env cfg st k =
        runFolds env cfg k (kfoldSplits 3 cfg.sequences.length) st none := by
  refine ⟨kfoldSplits_length 3 _, kfoldSplits_tests _,
    kfoldSplits_test_nonempty _ hlen, ?_⟩
  intro env st k
  unfold cv_score
  rw [if_pos hlen]

/-- C9 witness: the fold-count statement at the concrete 3-sequence word. -/
theorem C9_witness :
    (kfoldSplits 3 cfg3.sequences.length).length = 3 ∧
    ((kfoldSplits 3 cfg3.sequences.length).map Prod.snd).flatten =
      List.range cfg3.sequences.length := by
  have h := C9_three_folds cfg3 (by decide)
  exact ⟨h.1, h.2.1⟩

/-- C10: whenever `select()` returns normally, the shared mappings
`all_word_sequences` (`self.words`) and `all_word_Xlengths` (`self.hwords`)
are unchanged for every strategy — in particular the target word's stored
entry — because the CV fold overwrite rebinds only the instance's own `X`
and `lengths` attributes. -/
theorem C10_shared_maps_unchanged (env : FitEnv) (cfg : SelCfg)
    (strat : Strategy) (st : SelState) (r : Option HMMModel) (st' : SelState)
    (h : runSelect env cfg strat st = .ok (r, st')) :
    st'.words = st.words ∧ st'.hwords = st.hwords ∧
    st'.hwords.lookup cfg.this_word = st.hwords.lookup cfg.this_word := by
  have main : st'.words = st.words ∧ st'.hwords = st.hwords := by
    cases strat with
    | constant =>
      simp only [runSelect, selectConstant, Except.ok.injEq, Prod.mk.injEq] at h
      rw [← h.2]
      exact ⟨rfl, rfl⟩
    | bic =>
      simp only [runSelect, selectBIC, Except.ok.injEq, Prod.mk.injEq] at h
      rw [← h.2]
      exact ⟨rfl, rfl⟩
    | dic =>
      simp only [runSelect, selectDIC] at h
      cases hbow : buildOtherWords st.hwords cfg.this_word st.words with
      | error e =>
        simp only [hbow] at h
        exact Except.noConfusion h
      | ok ow =>
        simp only [hbow, Except.ok.injEq, Prod.mk.injEq] at h
        rw [← h.2]
        exact ⟨rfl, rfl⟩
    | cv =>
      simp only [runSelect, selectCVfull, Except.ok.injEq, Prod.mk.injEq] at h
      rw [← h.2]
      exact cvLoop_frame env cfg (searchRange cfg) st [] none cfg.n_constant
  exact ⟨main.1, main.2, by rw [main.2]⟩

/-- C10 witness: the CV strategy run concretely leaves both shared mappings
untouched even though it overwrites the instance's own `X` and `lengths`. -/
theorem C10_witness :
    (selectCVfull envF cfgF stF).2.words = stF.words ∧
    (selectCVfull envF cfgF stF).2.hwords = stF.hwords ∧
    (selectCVfull envF cfgF stF).2.hwords.lookup cfgF.this_word =
      stF.hwords.lookup cfgF.this_word :=
  C10_shared_maps_unchanged envF cfgF .cv stF (selectCVfull envF cfgF stF).1
    (selectCVfull envF cfgF stF).2 rfl

end HMM
